import Mathlib

/-!
Shallow embedding of the CSV survey parser (src/csv.rs, module csv_reader).

Strings are modelled as lists of characters.  The Rust line splitter scans
bytes, but the two bytes it reacts to (ASCII quote and ASCII newline) never
occur as continuation bytes of a multi-byte UTF-8 sequence, and every split
index is therefore a character boundary, so a character-level scan is an
exact model.
-/

set_option maxRecDepth 100000

namespace Csv

/-- A Rust `String`, modelled as a list of characters. -/
abbrev Str := List Char

/-- `type Answer = Vec<String>`: one comma-delimited field, a list of
semicolon-separated choices. -/
abbrev Answer := List Str

/-- `type Reply = Vec<Answer>`: one record, a list of fields. -/
abbrev Reply := List Answer

/-- `struct Answers { labels: Vec<String>, replies: Vec<Reply> }`. -/
structure Answers where
  labels : List Str
  replies : List Reply
deriving DecidableEq, Repr

/-- `struct State` of the record parser (mod parser). -/
structure State where
  options : List Str
  option : Str
  special : Bool
  text : Bool
  next : Bool
  over : Bool
deriving DecidableEq, Repr

/-- `State::new`. -/
def State.new : State :=
  ⟨[], [], false, false, false, false⟩

/-- `State::update`: the Rust code first resets each of the one-shot flags
`next`, `over`, `special` (clearing a flag only when it is set equals
unconditionally setting it to false), then matches on the character. -/
def State.update (s : State) (c : Char) : State :=
  let s0 : State := { s with next := false, over := false, special := false }
  if c = '"' then { s0 with text := !s0.text, special := true }
  else if c = ',' then (if !s0.text then { s0 with over := true } else s0)
  else if c = ';' then { s0 with next := true, special := true }
  else s0

/-- `State::parse`: push the character into the pending option while inside
quoted text and the character is not special; flush the option on `next` or
`over`; on `over` also emit and reset the accumulated options. -/
def State.parse (s : State) (c : Char) : State × Option Answer :=
  let s1 : State := if s.text && !s.special then { s with option := s.option ++ [c] } else s
  let s2 : State :=
    if s1.next || s1.over then { s1 with options := s1.options ++ [s1.option], option := [] }
    else s1
  if s2.over then ({ s2 with options := [] }, some s2.options) else (s2, none)

/-- One character step of the record parser: `state.update(c)` followed by
`state.parse(c)`, as performed per character in `parse_line`. -/
def State.step (s : State) (c : Char) : State × Option Answer :=
  (s.update c).parse c

/-- The loop body of `parse_line`: feed one character to the state machine
and append the emitted field, if any, to the record built so far. -/
def stepFold (acc : State × Reply) (c : Char) : State × Reply :=
  match acc.1.step c with
  | (st, some t) => (st, acc.2 ++ [t])
  | (st, none) => (st, acc.2)

/-- `parse_line`: run the state machine over the line, then feed one
synthetic `','` to flush the last field.  In Rust the final
`state.parse(',')` result goes through `.expect(...)`: when it is `None`
(possible only for a line with an odd number of quote characters, which
leaves `text` set) the Rust program panics; that branch is modelled as
emitting no final field, and the lemmas below use the `some` branch only. -/
def parse_line (input : Str) : Reply :=
  let r : State × Reply := input.foldl stepFold (State.new, [])
  match r.1.step ',' with
  | (_, some t) => r.2 ++ [t]
  | (_, none) => r.2

/-- The scanning loop of `split_lines`: toggle `text` on a quote, and on a
newline outside quotes end the current line; the newline byte itself starts
the next line (Rust sets `last_pushed = index`, not `index + 1`). -/
def splitLinesGo : List Char → Bool → List Char → List (List Char)
  | [], _, cur => [cur.reverse]
  | c :: rest, text, cur =>
    if c = '"' then splitLinesGo rest (!text) (c :: cur)
    else if c = '\n' then
      if text then splitLinesGo rest text (c :: cur)
      else cur.reverse :: splitLinesGo rest text [c]
    else splitLinesGo rest text (c :: cur)

/-- `split_lines`: split the raw file at newlines that occur outside quoted
text; the remaining tail is always pushed, so the result is never empty. -/
def split_lines (file : Str) : List Str :=
  splitLinesGo file false []

namespace parser

/-- `parser::parse`: the first logical line's record is flattened into the
labels; every remaining line is parsed into a reply. -/
def parse (file : Str) : Except String Answers :=
  match split_lines file with
  | [] => .error "first line missing"
  | first :: rest => .ok ⟨(parse_line first).flatten, rest.map parse_line⟩

end parser

/-- The validation loop of `Answers::parse`: return the error on the first
reply whose length differs from the number of labels. -/
def checkReplies (n : Nat) : List Reply → Except String Unit
  | [] => .ok ()
  | b :: rest =>
    if b.length ≠ n then .error "replies are not the same size as labels"
    else checkReplies n rest

/-- `Answers::parse`: parse, then enforce that every reply has exactly as
many fields as there are labels. -/
def Answers.parse (file : Str) : Except String Answers :=
  match parser.parse file with
  | .error e => .error e
  | .ok answers =>
    match checkReplies answers.labels.length answers.replies with
    | .error e => .error e
    | .ok _ => .ok answers

/-- The loop inside `Answers::label`: scan the labels in order and return
the index of the first one satisfying the predicate. -/
def labelGo (cmp : Str → Bool) : Nat → List Str → Option Nat
  | _, [] => none
  | i, l :: ls => if cmp l then some i else labelGo cmp (i + 1) ls

/-- `Answers::label`. -/
def Answers.label (a : Answers) (cmp : Str → Bool) : Option Nat :=
  labelGo cmp 0 a.labels

/-- `Answers::collect`: the label at the index followed by, for every reply
in order, every choice of that reply's field at the index.  Rust indexes
`self.labels[index]` and `reply[index]` directly and panics out of bounds;
the model uses `getD` and the bounds are established separately. -/
def Answers.collect (a : Answers) (index : Nat) : List Str :=
  a.labels.getD index [] :: (a.replies.map (fun reply => reply.getD index [])).flatten

/-- `str::contains` for the substring search of `Answers::question`. -/
def strContains (hay needle : Str) : Bool :=
  decide (needle <:+: hay)

/-- `Answers::question`. -/
def Answers.question (a : Answers) (name : Str) : Option (List Str) :=
  (a.label (fun l => strContains l name)).map a.collect

/-- `Answers::question_exact`. -/
def Answers.question_exact (a : Answers) (name : Str) : Option (List Str) :=
  (a.label (fun l => l = name)).map a.collect

/-- Convert a Lean string literal to the model's character-list strings. -/
def str (s : String) : Str := s.data

/-- The quote parity the line splitter's `text` flag has after scanning the
given characters, starting from the given value. -/
def quoteParity (text : Bool) : Str → Bool
  | [] => text
  | c :: rest => quoteParity (if c = '"' then !text else text) rest

/-- Modelled from the spec: §4.3 step 2 collapses each header field to its
first choice (or the empty string for an empty field).  Stated only for
comparison with `parser.parse`, which flattens the header record instead. -/
def specCollapseLabels (record : Reply) : List Str :=
  record.map (fun f => f.headD [])

/-- Scenario A's raw input (each cell quoted, lines joined by newlines, no
trailing newline). -/
def scenarioA : Str :=
  str "\"q1\", \"q2\", \"q3\"\n\"yea\", \"yea;no\", \"yea\"\n\"what\", \"sure\", \"mhmm\""

/-- The table the parser builds from Scenario A's input. -/
def scenarioATable : Answers :=
  ⟨[str "q1", str "q2", str "q3"],
   [[[str "yea"], [str "yea", str "no"], [str "yea"]],
    [[str "what"], [str "sure"], [str "mhmm"]]]⟩

theorem splitLinesGo_flatten (l : List Char) :
    ∀ (text : Bool) (cur : List Char),
      (splitLinesGo l text cur).flatten = cur.reverse ++ l := by
  induction l with
  | nil => intro text cur; simp [splitLinesGo]
  | cons c rest ih =>
    intro text cur
    by_cases hq : c = '"'
    · simp [splitLinesGo, hq, ih]
    · by_cases hn : c = '\n'
      · cases text with
        | true => simp [splitLinesGo, hq, hn, ih]
        | false => simp [splitLinesGo, hq, hn, ih]
      · simp [splitLinesGo, hq, hn, ih]

theorem splitLinesGo_length_pos (l : List Char) :
    ∀ (text : Bool) (cur : List Char), 0 < (splitLinesGo l text cur).length := by
  induction l with
  | nil => intro text cur; simp [splitLinesGo]
  | cons c rest ih =>
    intro text cur
    by_cases hq : c = '"'
    · simpa [splitLinesGo, hq] using ih (!text) (c :: cur)
    · by_cases hn : c = '\n'
      · cases text with
        | true => simpa [splitLinesGo, hq, hn] using ih true (c :: cur)
        | false => simp [splitLinesGo, hq, hn]
      · simpa [splitLinesGo, hq, hn] using ih text (c :: cur)

theorem split_lines_length_pos (file : Str) : 0 < (split_lines file).length :=
  splitLinesGo_length_pos file false []

/-- C6: the logical lines carry the original newline characters (each
interior newline becomes the leading character of the following line), so
their plain concatenation reconstructs the input exactly; the splitter
always produces at least one line, and the empty input produces exactly one
empty line. -/
theorem splitting_round_trips :
    (∀ file : Str, (split_lines file).flatten = file ∧ 0 < (split_lines file).length) ∧
    split_lines [] = [[]] := by
  refine ⟨fun file => ⟨?_, split_lines_length_pos file⟩, rfl⟩
  simpa using splitLinesGo_flatten file false []

theorem parser_parse_eq (file first : Str) (rest : List Str)
    (h : split_lines file = first :: rest) :
    parser.parse file = .ok ⟨(parse_line first).flatten, rest.map parse_line⟩ := by
  simp [parser.parse, h]

theorem checkReplies_error_eq (n : Nat) :
    ∀ (l : List Reply) (e : String), checkReplies n l = .error e →
      e = "replies are not the same size as labels" := by
  intro l
  induction l with
  | nil => intro e h; simp [checkReplies] at h
  | cons b rest ih =>
    intro e h
    by_cases hb : b.length = n
    · exact ih e (by simpa [checkReplies, hb] using h)
    · simp [checkReplies, hb] at h
      exact h.symm

theorem Answers.parse_ne_missing (file : Str) :
    Answers.parse file ≠ .error "first line missing" := by
  cases hs : split_lines file with
  | nil =>
    have := split_lines_length_pos file
    rw [hs] at this
    simp at this
  | cons first rest =>
    have hp := parser_parse_eq file first rest hs
    unfold Answers.parse
    rw [hp]
    dsimp only
    cases hc : checkReplies ((parse_line first).flatten).length (rest.map parse_line) with
    | error e =>
      have he := checkReplies_error_eq _ _ _ hc
      subst he
      intro h
      simp at h
    | ok u => simp

/-- C1 (counterexample): `Answers::parse` on the empty input string does
not fail at all — the splitter yields one empty logical line, the header
parses to one field with one empty choice, and the result is a table with
the single empty label and no replies. -/
theorem emptyInput_parses_ok :
    Answers.parse [] = .ok ⟨[[]], []⟩ ∧ Answers.parse [] ≠ .error "first line missing" := by
  exact ⟨rfl, by rw [show Answers.parse ([] : Str) = .ok ⟨[[]], []⟩ from rfl]; simp⟩

/-- C1 (amended): table construction fails with the missing-header error
exactly when line splitting produces zero logical lines; but line splitting
always produces at least one line, so that error is unreachable, and the
empty input parses successfully into a table with one empty label and no
replies. -/
theorem emptyInput_error_unreachable :
    (∀ file : Str,
      (Answers.parse file = .error "first line missing" ↔ split_lines file = []) ∧
      0 < (split_lines file).length) ∧
    Answers.parse [] = .ok ⟨[[]], []⟩ := by
  refine ⟨fun file => ⟨⟨fun h => absurd h (Answers.parse_ne_missing file), fun h => ?_⟩,
    split_lines_length_pos file⟩, rfl⟩
  have := split_lines_length_pos file
  rw [h] at this
  simp at this

theorem Answers.parse_ok (file : Str) (a : Answers) (h : Answers.parse file = .ok a) :
    parser.parse file = .ok a ∧ checkReplies a.labels.length a.replies = .ok () := by
  unfold Answers.parse at h
  cases hp : parser.parse file with
  | error e => rw [hp] at h; simp at h
  | ok b =>
    rw [hp] at h
    dsimp only at h
    cases hc : checkReplies b.labels.length b.replies with
    | error e => rw [hc] at h; simp at h
    | ok u =>
      rw [hc] at h
      simp at h
      subst h
      exact ⟨rfl, hc⟩

theorem checkReplies_ok (n : Nat) :
    ∀ (l : List Reply), checkReplies n l = .ok () → ∀ b ∈ l, b.length = n := by
  intro l
  induction l with
  | nil => intro _ b hb; simp at hb
  | cons x rest ih =>
    intro h b hb
    by_cases hx : x.length = n
    · rcases List.mem_cons.mp hb with hbx | hbr
      · rw [hbx]; exact hx
      · exact ih (by simpa [checkReplies, hx] using h) b hbr
    · simp [checkReplies, hx] at h

theorem checkReplies_error_of_mismatch (n : Nat) :
    ∀ (l : List Reply), (∃ b ∈ l, b.length ≠ n) →
      checkReplies n l = .error "replies are not the same size as labels" := by
  intro l
  induction l with
  | nil => rintro ⟨b, hb, _⟩; simp at hb
  | cons x rest ih =>
    rintro ⟨b, hb, hbn⟩
    by_cases hx : x.length = n
    · rcases List.mem_cons.mp hb with hbx | hbr
      · exact absurd hx (hbx ▸ hbn)
      · simpa [checkReplies, hx] using ih ⟨b, hbr, hbn⟩
    · simp [checkReplies, hx]

/-- C4: Scenario A's three-line quoted input parses successfully into the
expected labels and replies, with the semicolon inside `"yea;no"` splitting
that cell into two choices. -/
theorem scenarioA_parses : Answers.parse scenarioA = .ok scenarioATable := by
  rfl

/-- C5: on Scenario A's table, `question_exact "q2"` finds index 1 (the
first — and only — label equal to the search string) and returns the label
followed by every choice of field 1 across the replies, in record order and
then choice order: `["q2", "yea", "no", "sure"]`. -/
theorem scenarioB_question_exact :
    Answers.parse scenarioA = .ok scenarioATable ∧
    scenarioATable.label (fun l => l = str "q2") = some 1 ∧
    scenarioATable.question_exact (str "q2") =
      some [str "q2", str "yea", str "no", str "sure"] :=
  ⟨rfl, rfl, rfl⟩

/-- A one-line input whose single comma-delimited header cell holds two
semicolon-separated choices. -/
def headerMulti : Str := str "\"a;b\""

/-- C2 (counterexample): on the input `"a;b"` the header record has one
field with two choices, yet the parsed table has two labels `["a", "b"]` —
the labels are the flattening of the header record, not the collapse of
each field to its first choice, and the number of labels exceeds the number
of comma-delimited header fields. -/
theorem labels_not_first_choice_counterexample :
    Answers.parse headerMulti = .ok ⟨[str "a", str "b"], []⟩ ∧
    parse_line headerMulti = [[str "a", str "b"]] ∧
    (parse_line headerMulti).length = 1 ∧
    specCollapseLabels (parse_line headerMulti) = [str "a"] ∧
    ([str "a", str "b"] : List Str) ≠ specCollapseLabels (parse_line headerMulti) ∧
    ([str "a", str "b"] : List Str).length ≠ (parse_line headerMulti).length :=
  ⟨rfl, rfl, rfl, rfl, by decide, by decide⟩

/-- C2 (amended): for every input accepted by `Answers::parse`, the labels
are the flattening of the first logical line's record — every choice of
every header field becomes a label, in order — so the number of labels is
the total number of choices across the header's fields, which can exceed
the number of comma-delimited fields when a header cell contains
semicolon-separated sub-choices. -/
theorem labels_are_flattened_header (file : Str) (a : Answers)
    (h : Answers.parse file = .ok a) :
    a.labels = (parse_line ((split_lines file).headI)).flatten ∧
    a.labels.length = ((parse_line ((split_lines file).headI)).map List.length).sum := by
  have hp := (Answers.parse_ok file a h).1
  cases hs : split_lines file with
  | nil =>
    have := split_lines_length_pos file
    rw [hs] at this
    simp at this
  | cons first rest =>
    rw [parser_parse_eq file first rest hs] at hp
    simp at hp
    constructor
    · rw [← hp]; simp [hs]
    · rw [← hp]; simp [hs]

theorem labels_are_flattened_header_witness :
    (Answers.mk [str "a", str "b"] []).labels =
      (parse_line ((split_lines headerMulti).headI)).flatten ∧
    (Answers.mk [str "a", str "b"] []).labels.length =
      ((parse_line ((split_lines headerMulti).headI)).map List.length).sum :=
  labels_are_flattened_header headerMulti ⟨[str "a", str "b"], []⟩ rfl

/-- A multi-choice header cell followed by a two-field data line: one
header field, two labels, two data fields. -/
def mismatchOkInput : Str := str "\"a;b\"\n\"x\", \"y\""

/-- C3 (counterexample): the validation compares each reply's length with
the number of labels, not with the header's field count.  On
`"a;b"\n"x", "y"` the header has one comma-delimited field but two
labels, and the two-field data record is accepted. -/
theorem fieldCount_check_counterexample :
    Answers.parse mismatchOkInput = .ok ⟨[str "a", str "b"], [[[str "x"], [str "y"]]]⟩ ∧
    (parse_line ((split_lines mismatchOkInput).headI)).length = 1 ∧
    ([[str "x"], [str "y"]] : Reply).length = 2 ∧
    ([[str "x"], [str "y"]] : Reply).length ≠
      (parse_line ((split_lines mismatchOkInput).headI)).length :=
  ⟨rfl, rfl, rfl, by decide⟩

/-- C3 (amended): `Answers::parse` returns a table only if every data
record's field count equals the number of labels (the flattened header
choice count): on success every record in the replies has length equal to
the number of labels, and whenever some record's length differs the whole
construction fails with the mismatch error — no table, not even a partial
one, is returned. -/
theorem replies_sized_as_labels :
    (∀ (file : Str) (a : Answers), Answers.parse file = .ok a →
      ∀ r ∈ a.replies, r.length = a.labels.length) ∧
    (∀ (file : Str) (a : Answers), parser.parse file = .ok a →
      (∃ r ∈ a.replies, r.length ≠ a.labels.length) →
      Answers.parse file = .error "replies are not the same size as labels") := by
  constructor
  · intro file a h r hr
    exact checkReplies_ok a.labels.length a.replies (Answers.parse_ok file a h).2 r hr
  · intro file a hp hex
    unfold Answers.parse
    rw [hp]
    dsimp only
    rw [checkReplies_error_of_mismatch a.labels.length a.replies hex]

/-- Scenario C's shape: a three-field header followed by a two-field data
line. -/
def mismatchErrInput : Str := str "\"q1\", \"q2\", \"q3\"\n\"yea\", \"yea\""

theorem replies_sized_as_labels_witness :
    ([[str "yea"], [str "yea", str "no"], [str "yea"]] : Reply).length =
      scenarioATable.labels.length ∧
    Answers.parse mismatchErrInput = .error "replies are not the same size as labels" :=
  ⟨replies_sized_as_labels.1 scenarioA scenarioATable rfl
      [[str "yea"], [str "yea", str "no"], [str "yea"]] (by simp [scenarioATable]),
    replies_sized_as_labels.2 mismatchErrInput
      ⟨[str "q1", str "q2", str "q3"], [[[str "yea"], [str "yea"]]]⟩ rfl
      ⟨[[str "yea"], [str "yea"]], by simp, by decide⟩⟩

theorem step_quote (s : State) :
    s.step '"' = (⟨s.options, s.option, true, !s.text, false, false⟩, none) := by
  cases s with
  | mk os o sp tx nx ov => cases tx <;> rfl

theorem step_semi (s : State) :
    s.step ';' = (⟨s.options ++ [s.option], [], true, s.text, true, false⟩, none) := by
  cases s with
  | mk os o sp tx nx ov => cases tx <;> rfl

theorem step_comma_inText (s : State) (h : s.text = true) :
    s.step ',' = (⟨s.options, s.option ++ [','], false, true, false, false⟩, none) := by
  cases s with
  | mk os o sp tx nx ov =>
    dsimp only at h
    subst h
    rfl

theorem step_comma_outText (s : State) (h : s.text = false) :
    s.step ',' = (⟨[], [], false, false, false, true⟩, some (s.options ++ [s.option])) := by
  cases s with
  | mk os o sp tx nx ov =>
    dsimp only at h
    subst h
    rfl

theorem step_plain_inText (s : State) (c : Char)
    (hq : c ≠ '"') (hc : c ≠ ',') (hsc : c ≠ ';') (h : s.text = true) :
    s.step c = (⟨s.options, s.option ++ [c], false, true, false, false⟩, none) := by
  cases s with
  | mk os o sp tx nx ov =>
    dsimp only at h
    subst h
    simp [State.step, State.update, State.parse, hq, hc, hsc]

theorem step_plain_outText (s : State) (c : Char)
    (hq : c ≠ '"') (hc : c ≠ ',') (hsc : c ≠ ';') (h : s.text = false) :
    s.step c = (⟨s.options, s.option, false, false, false, false⟩, none) := by
  cases s with
  | mk os o sp tx nx ov =>
    dsimp only at h
    subst h
    simp [State.step, State.update, State.parse, hq, hc, hsc]

/-- A field is emitted by a character step only for a comma outside quoted
text, and it is then the accumulated options closed by the pending one. -/
theorem step_emit (s : State) (c : Char) (f : Answer) (h : (s.step c).2 = some f) :
    c = ',' ∧ s.text = false ∧ f = s.options ++ [s.option] := by
  by_cases hq : c = '"'
  · subst hq; rw [step_quote] at h; simp at h
  · by_cases hc : c = ','
    · subst hc
      cases htx : s.text
      · rw [step_comma_outText s htx] at h
        simp at h
        exact ⟨rfl, rfl, h.symm⟩
      · rw [step_comma_inText s htx] at h; simp at h
    · by_cases hsc : c = ';'
      · subst hsc; rw [step_semi] at h; simp at h
      · cases htx : s.text
        · rw [step_plain_outText s c hq hc hsc htx] at h; simp at h
        · rw [step_plain_inText s c hq hc hsc htx] at h; simp at h

theorem foldl_stepFold_inv (Q : State → Prop) (P : Answer → Prop)
    (hQ : ∀ (s : State) (c : Char), Q s → Q (s.step c).1)
    (hP : ∀ (s : State) (c : Char) (f : Answer), Q s → (s.step c).2 = some f → P f) :
    ∀ (l : List Char) (s : State) (acc : Reply), Q s → (∀ f ∈ acc, P f) →
      Q (l.foldl stepFold (s, acc)).1 ∧ ∀ f ∈ (l.foldl stepFold (s, acc)).2, P f := by
  intro l
  induction l with
  | nil => intro s acc hs hacc; exact ⟨hs, hacc⟩
  | cons c rest ih =>
    intro s acc hs hacc
    rcases hsc : s.step c with ⟨st, emt⟩
    have hq : Q st := by
      have := hQ s c hs
      rw [hsc] at this
      exact this
    cases emt with
    | none =>
      have hf : stepFold (s, acc) c = (st, acc) := by simp [stepFold, hsc]
      rw [List.foldl_cons, hf]
      exact ih st acc hq hacc
    | some t =>
      have hf : stepFold (s, acc) c = (st, acc ++ [t]) := by simp [stepFold, hsc]
      have ht : P t := by
        refine hP s c t hs ?_
        rw [hsc]
      rw [List.foldl_cons, hf]
      refine ih st (acc ++ [t]) hq ?_
      intro f hfmem
      rcases List.mem_append.mp hfmem with hfl | hfr
      · exact hacc f hfl
      · rw [List.mem_singleton.mp hfr]; exact ht

/-- Every field of `parse_line` is emitted by some character step (the
scanned characters or the final synthetic comma) from a reachable state, so
any property preserved by steps and enjoyed by emitted fields holds of all
fields of the parsed record. -/
theorem parse_line_inv (Q : State → Prop) (P : Answer → Prop)
    (hnew : Q State.new)
    (hQ : ∀ (s : State) (c : Char), Q s → Q (s.step c).1)
    (hP : ∀ (s : State) (c : Char) (f : Answer), Q s → (s.step c).2 = some f → P f) :
    ∀ (input : Str), ∀ f ∈ parse_line input, P f := by
  intro input f hf
  obtain ⟨hQr, hPr⟩ :=
    foldl_stepFold_inv Q P hQ hP input State.new [] hnew (by simp)
  unfold parse_line at hf
  dsimp only at hf
  rcases hlast : ((input.foldl stepFold (State.new, [])).1).step ',' with ⟨st, emt⟩
  rw [hlast] at hf
  cases emt with
  | none => exact hPr f hf
  | some t =>
    dsimp only at hf
    rcases List.mem_append.mp hf with hfl | hfr
    · exact hPr f hfl
    · rw [List.mem_singleton.mp hfr]
      refine hP _ ',' t hQr ?_
      rw [hlast]

/-- No semicolon occurs in the pending option or in any accumulated option
of a parser state. -/
def NoSemiState (s : State) : Prop :=
  ';' ∉ s.option ∧ ∀ o ∈ s.options, ';' ∉ o

theorem step_noSemi (s : State) (c : Char) (h : NoSemiState s) :
    NoSemiState (s.step c).1 ∧
    ∀ f : Answer, (s.step c).2 = some f → ∀ o ∈ f, ';' ∉ o := by
  obtain ⟨ho, hos⟩ := h
  by_cases hq : c = '"'
  · subst hq; rw [step_quote]; exact ⟨⟨ho, hos⟩, by intro f hf; simp at hf⟩
  · by_cases hc : c = ','
    · subst hc
      cases htx : s.text
      · rw [step_comma_outText s htx]
        refine ⟨⟨by simp, by simp⟩, ?_⟩
        intro f hf o hof
        simp at hf
        subst hf
        rcases List.mem_append.mp hof with hl | hr
        · exact hos o hl
        · rw [List.mem_singleton.mp hr]; exact ho
      · rw [step_comma_inText s htx]
        refine ⟨⟨?_, hos⟩, by intro f hf; simp at hf⟩
        intro hmem
        rcases List.mem_append.mp hmem with hl | hr
        · exact ho hl
        · simp at hr
    · by_cases hsc : c = ';'
      · subst hsc
        rw [step_semi]
        refine ⟨⟨by simp, ?_⟩, by intro f hf; simp at hf⟩
        intro o hom
        rcases List.mem_append.mp hom with hl | hr
        · exact hos o hl
        · rw [List.mem_singleton.mp hr]; exact ho
      · cases htx : s.text
        · rw [step_plain_outText s c hq hc hsc htx]
          exact ⟨⟨ho, hos⟩, by intro f hf; simp at hf⟩
        · rw [step_plain_inText s c hq hc hsc htx]
          refine ⟨⟨?_, hos⟩, by intro f hf; simp at hf⟩
          intro hmem
          rcases List.mem_append.mp hmem with hl | hr
          · exact ho hl
          · rw [List.mem_singleton.mp hr] at hsc
            exact hsc rfl

/-- C7: a semicolon is a choice boundary regardless of quote state — the
step on `';'` always flushes the pending choice into the accumulated
options (even when `text` is set), and consequently the semicolon character
itself never occurs in any choice of any parsed record. -/
theorem semicolon_always_splits :
    (∀ (input : Str), ∀ f ∈ parse_line input, ∀ ch ∈ f, ';' ∉ ch) ∧
    (∀ s : State,
      s.step ';' = (⟨s.options ++ [s.option], [], true, s.text, true, false⟩, none)) := by
  constructor
  · intro input f hf
    refine parse_line_inv NoSemiState (fun f => ∀ o ∈ f, ';' ∉ o) ?_ ?_ ?_ input f hf
    · exact ⟨by simp [State.new], by simp [State.new]⟩
    · intro s c hs
      exact (step_noSemi s c hs).1
    · intro s c f hs hemit
      exact (step_noSemi s c hs).2 f hemit
  · exact step_semi

theorem semicolon_always_splits_witness :
    (';' ∉ str "a") ∧
    State.new.step ';' =
      (⟨State.new.options ++ [State.new.option], [], true, State.new.text, true, false⟩,
        none) :=
  ⟨semicolon_always_splits.1 headerMulti [str "a", str "b"] (by decide) (str "a") (by decide),
    semicolon_always_splits.2 State.new⟩

/-- C8: only characters consumed inside quoted text become content.  A
non-delimiter character outside quotes changes no buffer and emits nothing
(it is silently dropped); the same character inside quotes is appended to
the pending choice; and a quote character is never content — it only
toggles `text`. -/
theorem only_quoted_text_is_content :
    (∀ (s : State) (c : Char), c ≠ '"' → c ≠ ',' → c ≠ ';' → s.text = false →
      s.step c = (⟨s.options, s.option, false, false, false, false⟩, none)) ∧
    (∀ (s : State) (c : Char), c ≠ '"' → c ≠ ',' → c ≠ ';' → s.text = true →
      s.step c = (⟨s.options, s.option ++ [c], false, true, false, false⟩, none)) ∧
    (∀ s : State, s.step '"' = (⟨s.options, s.option, true, !s.text, false, false⟩, none)) :=
  ⟨step_plain_outText, step_plain_inText, step_quote⟩

theorem only_quoted_text_is_content_witness :
    State.new.step ' ' =
      (⟨State.new.options, State.new.option, false, false, false, false⟩, none) ∧
    (State.mk [] [] false true false false).step ' ' =
      (⟨[], [] ++ [' '], false, true, false, false⟩, none) ∧
    State.new.step '"' =
      (⟨State.new.options, State.new.option, true, !State.new.text, false, false⟩, none) :=
  ⟨only_quoted_text_is_content.1 State.new ' ' (by decide) (by decide) (by decide) rfl,
    only_quoted_text_is_content.2.1 ⟨[], [], false, true, false, false⟩ ' '
      (by decide) (by decide) (by decide) rfl,
    only_quoted_text_is_content.2.2 State.new⟩

/-- Every field of a parsed record holds at least one choice: a flush
always precedes every emission, so the emitted options are never empty. -/
theorem parse_line_fields_ne_nil (input : Str) : ∀ f ∈ parse_line input, f ≠ [] := by
  refine parse_line_inv (fun _ => True) (fun f => f ≠ []) trivial (fun _ _ _ => trivial)
    ?_ input
  intro s c f _ hemit
  obtain ⟨_, _, hfeq⟩ := step_emit s c f hemit
  rw [hfeq]
  simp

theorem length_le_length_flatten {α : Type} :
    ∀ L : List (List α), (∀ x ∈ L, x ≠ []) → L.length ≤ L.flatten.length := by
  intro L
  induction L with
  | nil => intro _; simp
  | cons x rest ih =>
    intro h
    have hx : 0 < x.length := List.length_pos.mpr (h x (by simp))
    have hr := ih (fun y hy => h y (by simp [hy]))
    simp only [List.flatten_cons, List.length_append, List.length_cons]
    omega

theorem splitLinesGo_last (l : List Char) :
    ∀ (text : Bool) (cur : List Char), quoteParity text l = false →
      ∃ init, splitLinesGo (l ++ ['\n']) text cur = init ++ [['\n']] ∧ init ≠ [] := by
  induction l with
  | nil =>
    intro text cur hq
    simp [quoteParity] at hq
    subst hq
    exact ⟨[cur.reverse], by simp [splitLinesGo], by simp⟩
  | cons c rest ih =>
    intro text cur hq
    by_cases hc : c = '"'
    · subst hc
      have hq2 : quoteParity (!text) rest = false := by simpa [quoteParity] using hq
      obtain ⟨init, heq, hne⟩ := ih (!text) ('"' :: cur) hq2
      exact ⟨init, by simpa [splitLinesGo] using heq, hne⟩
    · by_cases hn : c = '\n'
      · subst hn
        cases text with
        | true =>
          have hq2 : quoteParity true rest = false := by simpa [quoteParity] using hq
          obtain ⟨init, heq, hne⟩ := ih true ('\n' :: cur) hq2
          exact ⟨init, by simpa [splitLinesGo] using heq, hne⟩
        | false =>
          have hq2 : quoteParity false rest = false := by simpa [quoteParity] using hq
          obtain ⟨init, heq, hne⟩ := ih false ['\n'] hq2
          refine ⟨cur.reverse :: init, ?_, by simp⟩
          simp only [List.cons_append, splitLinesGo, if_neg (by decide : ¬ '\n' = '"')]
          simp [heq]
      · have hq2 : quoteParity text rest = false := by simpa [quoteParity, hc] using hq
        obtain ⟨init, heq, hne⟩ := ih text (c :: cur) hq2
        exact ⟨init, by simpa [splitLinesGo, hc, hn] using heq, hne⟩

/-- C9: when the input ends in a newline that lies outside quoted text, the
splitter's final logical line is exactly that newline character; the record
parser turns it into one field holding one empty choice; and whenever the
header record has more than one field, the resulting one-field record
cannot match the label count, so the whole parse fails with the mismatch
error. -/
theorem trailing_newline_mismatch (l : Str) (hpar : quoteParity false l = false) :
    (split_lines (l ++ ['\n'])).getLast? = some ['\n'] ∧
    parse_line ['\n'] = [[[]]] ∧
    (1 < (parse_line ((split_lines (l ++ ['\n'])).headI)).length →
      Answers.parse (l ++ ['\n']) = .error "replies are not the same size as labels") := by
  obtain ⟨init, hsplit, hinit⟩ := splitLinesGo_last l false [] hpar
  have hsl : split_lines (l ++ ['\n']) = init ++ [['\n']] := hsplit
  refine ⟨by rw [hsl]; simp, rfl, ?_⟩
  intro hlen
  cases init with
  | nil => exact absurd rfl hinit
  | cons first initRest =>
    have hsl2 : split_lines (l ++ ['\n']) = first :: (initRest ++ [['\n']]) := by
      rw [hsl]; simp
    have hhead : (split_lines (l ++ ['\n'])).headI = first := by rw [hsl2]; rfl
    rw [hhead] at hlen
    have hp := parser_parse_eq (l ++ ['\n']) first (initRest ++ [['\n']]) hsl2
    have hlab : 2 ≤ ((parse_line first).flatten).length := by
      have h1 := length_le_length_flatten (parse_line first) (parse_line_fields_ne_nil first)
      omega
    have hmem : parse_line ['\n'] ∈ (initRest ++ [['\n']]).map parse_line := by
      rw [List.map_append]
      exact List.mem_append_right _ (by simp)
    unfold Answers.parse
    rw [hp]
    dsimp only
    rw [checkReplies_error_of_mismatch _ _
      ⟨parse_line ['\n'], hmem, by
        intro hcontra
        rw [show (parse_line ['\n']).length = 1 from rfl] at hcontra
        omega⟩]

theorem trailing_newline_mismatch_witness :
    (split_lines (str "\"a\", \"b\"" ++ ['\n'])).getLast? = some ['\n'] ∧
    parse_line ['\n'] = [[[]]] ∧
    Answers.parse (str "\"a\", \"b\"" ++ ['\n']) =
      .error "replies are not the same size as labels" := by
  obtain ⟨h1, h2, h3⟩ := trailing_newline_mismatch (str "\"a\", \"b\"") (by decide)
  exact ⟨h1, h2, h3 (by decide)⟩

theorem labelGo_bound (cmp : Str → Bool) :
    ∀ (ls : List Str) (k i : Nat), labelGo cmp k ls = some i → k ≤ i ∧ i < k + ls.length := by
  intro ls
  induction ls with
  | nil => intro k i h; simp [labelGo] at h
  | cons x rest ih =>
    intro k i h
    by_cases hx : cmp x
    · simp [labelGo, hx] at h
      subst h
      simp
    · have h2 := ih (k + 1) i (by simpa [labelGo, hx] using h)
      constructor
      · omega
      · simp only [List.length_cons]
        omega

/-- C10: on any successfully parsed table, the index found by the label
scan (used by both `question` and `question_exact`) is below the number of
labels, and — because construction enforced that every reply has exactly as
many fields as there are labels — it is also below the length of every
reply, so the direct indexing `labels[index]` and `reply[index]` inside
`collect` is always in bounds and cannot panic. -/
theorem lookups_in_bounds (file : Str) (a : Answers) (cmp : Str → Bool) (i : Nat)
    (hok : Answers.parse file = .ok a) (hidx : a.label cmp = some i) :
    i < a.labels.length ∧ ∀ r ∈ a.replies, i < r.length := by
  have hb := labelGo_bound cmp a.labels 0 i hidx
  have hi : i < a.labels.length := by omega
  refine ⟨hi, ?_⟩
  intro r hr
  have hlen := checkReplies_ok a.labels.length a.replies (Answers.parse_ok file a hok).2 r hr
  omega

theorem lookups_in_bounds_witness :
    1 < scenarioATable.labels.length ∧
    1 < ([[str "yea"], [str "yea", str "no"], [str "yea"]] : Reply).length := by
  obtain ⟨h1, h2⟩ :=
    lookups_in_bounds scenarioA scenarioATable (fun l => l = str "q2") 1 rfl rfl
  exact ⟨h1, h2 [[str "yea"], [str "yea", str "no"], [str "yea"]] (by simp [scenarioATable])⟩

end Csv
